import Mathlib

/-!
Verification model of two circuit transformation passes of the repository:
the phase-ejection optimizer (`EjectFullW`, modelled from the specification;
the repository ships only its test suite) and the gate-set lowering pass
(`ConvertToXmonGates`, translated from `convert_to_xmon_gates.py`).

Circuits are modelled as streams of operations in moment order (within a
moment the operations act on disjoint qubits, so their relative order is
immaterial); moment re-packing belongs to the external circuit container
and is out of scope per the specification.
-/

/-- Gate parameter: an exact rational number of half-turns, or an
unresolved symbolic placeholder (identified by an index), which disables
all algebraic reasoning about the gate. -/
inductive Param where
  | num (v : ℚ)
  | sym (s : ℕ)
deriving DecidableEq, Repr

/-- Gate variants of the data model: equatorial rotation (`ExpWGate`;
`turns = 1` is the distinguished full rotation), Z-axis rotation,
controlled phase, measurement with key and invert mask, and a catch-all
for unsupported gates (such as SWAP). -/
inductive Gate where
  | PhasedRotation (phase : Param) (turns : Param)
  | ZRotation (turns : Param)
  | ControlledPhase (turns : Param)
  | Measurement (key : String) (invertMask : List Bool)
  | Unknown (id : ℕ)
deriving DecidableEq, Repr

/-- An operation: a gate applied to an ordered tuple of qubits
(qubits are opaque totally ordered identities, modelled as naturals). -/
structure Operation where
  gate : Gate
  qubits : List ℕ
deriving DecidableEq, Repr

/-- Canonical representative of a turns value in the half-open interval
`(-1, 1]`; two values differing by an even integer denote the same gate. -/
def canon (x : ℚ) : ℚ := x - 2 * ((⌈(x - 1) / 2⌉ : ℤ) : ℚ)

/-- Optimizer scanning state: the pending full-rotation phase per qubit, as
an association list sorted by strictly increasing qubit. Absence of a qubit
means `Clean`; presence with phase `v` means `Holding v`. -/
abbrev HState := List (ℕ × ℚ)

/-- Held phase of a qubit, if any. -/
def lookupH : HState → ℕ → Option ℚ
  | [], _ => none
  | (q, w) :: rest, a => if a = q then some w else lookupH rest a

/-- Record a held phase, keeping the list sorted by qubit. -/
def setH : HState → ℕ → ℚ → HState
  | [], a, v => [(a, v)]
  | (q, w) :: rest, a, v =>
    if a < q then (a, v) :: (q, w) :: rest
    else if a = q then (a, v) :: rest
    else (q, w) :: setH rest a v

/-- Forget the held phase of a qubit (it becomes Clean). -/
def eraseH (s : HState) (a : ℕ) : HState := s.filter (fun e => decide (e.1 ≠ a))

/-- The deferred full rotation carried by a state entry, as an operation. -/
def toW (e : ℕ × ℚ) : Operation :=
  ⟨.PhasedRotation (.num e.2) (.num 1), [e.1]⟩

/-- Re-attach an untouched leading mask entry: keep the stored bit when
there is one, materialize a default `false` only when a later entry was
flipped, and stay empty otherwise. -/
def padCons (m t : List Bool) : List Bool :=
  match m with
  | [] => if t.isEmpty then [] else false :: t
  | b :: _ => b :: t

/-- Rewrite a measurement invert mask, flipping the entry of every measured
qubit that is currently held; the mask is extended with default `false`
entries exactly as far as the largest flipped index requires. -/
def dischargeMask (s : HState) : List ℕ → List Bool → List Bool
  | [], m => m
  | q :: qs, m =>
    if (lookupH s q).isSome then (!m.headD false) :: dischargeMask s qs m.tail
    else padCons m (dischargeMask s qs m.tail)

/-- Flip (with default-`false` padding) the mask entry at one index. -/
def flipMask : List Bool → ℕ → List Bool
  | [], 0 => [true]
  | [], n + 1 => false :: flipMask [] n
  | b :: rest, 0 => (!b) :: rest
  | b :: rest, n + 1 => b :: flipMask rest n

/-- Transition on a single-qubit phased rotation with numeric parameters:
hold a full rotation when Clean, annihilate two full rotations into a
Z rotation (dropped when it is the identity), reflect a partial rotation
through the held axis. -/
def stepW (s : HState) (op : Operation) (a : ℕ) (p t : ℚ) :
    List Operation × HState :=
  match lookupH s a with
  | none =>
    if canon t = 1 then ([], setH s a (canon p))
    else ([op], s)
  | some f =>
    if canon t = 1 then
      ((if canon (2 * (p - f)) = 0 then []
        else [⟨.ZRotation (.num (canon (2 * (p - f)))), [a]⟩]), eraseH s a)
    else ([⟨.PhasedRotation (.num (canon (2 * f - p))) (.num t), [a]⟩], s)

/-- Transition on a numeric Z rotation: absorbed into a held rotation
(advancing the held phase by half the turns), otherwise passed through. -/
def stepZ (s : HState) (op : Operation) (a : ℕ) (t : ℚ) :
    List Operation × HState :=
  match lookupH s a with
  | none => ([op], s)
  | some f => ([], setH s a (canon (f + t / 2)))

/-- Transition on a numeric controlled-phase gate: cross one held rotation
(emitting a Z rotation on the other qubit and negating the turns), advance
both held phases on a double cross, else pass through. -/
def stepCZ (s : HState) (op : Operation) (a b : ℕ) (t : ℚ) :
    List Operation × HState :=
  match lookupH s a, lookupH s b with
  | none, none => ([op], s)
  | some _, none =>
    ([⟨.ZRotation (.num (canon t)), [b]⟩,
      ⟨.ControlledPhase (.num (canon (-t))), [a, b]⟩], s)
  | none, some _ =>
    ([⟨.ZRotation (.num (canon t)), [a]⟩,
      ⟨.ControlledPhase (.num (canon (-t))), [a, b]⟩], s)
  | some fa, some fb =>
    ([op], setH (setH s a (canon (fa + t / 2))) b (canon (fb + t / 2)))

/-- Transition on a measurement: every held measured qubit discharges into
the invert mask (no physical gate emitted) and becomes Clean. -/
def stepMeas (s : HState) (key : String) (mask : List Bool) (qs : List ℕ) :
    List Operation × HState :=
  ([⟨.Measurement key (dischargeMask s qs mask), qs⟩],
    s.filter (fun e => decide (e.1 ∉ qs)))

/-- Barrier transition (unsupported gate, or any symbolic parameter):
re-emit the held rotations of the touched qubits, in ascending qubit
order, immediately before the unmodified blocking operation. -/
def stepBarrier (s : HState) (op : Operation) : List Operation × HState :=
  ((s.filter (fun e => decide (e.1 ∈ op.qubits))).map toW ++ [op],
    s.filter (fun e => decide (e.1 ∉ op.qubits)))

/-- One step of the phase-ejection scan: the emitted output operations and
the updated per-qubit state. -/
def stepOp (s : HState) (op : Operation) : List Operation × HState :=
  match op.gate, op.qubits with
  | .PhasedRotation (.num p) (.num t), [a] => stepW s op a p t
  | .ZRotation (.num t), [a] => stepZ s op a t
  | .ControlledPhase (.num t), [a, b] => stepCZ s op a b t
  | .Measurement key mask, qs => stepMeas s key mask qs
  | _, _ => stepBarrier s op

/-- Single forward pass of the optimizer from a given state; at the end of
the circuit all still-held rotations are flushed in ascending qubit order. -/
def processOps (s : HState) : List Operation → List Operation
  | [] => s.map toW
  | op :: rest => (stepOp s op).1 ++ processOps (stepOp s op).2 rest

/-- Emitted operations of a pass, without the final flush. -/
def emitList (s : HState) : List Operation → List Operation
  | [] => []
  | op :: rest => (stepOp s op).1 ++ emitList (stepOp s op).2 rest

/-- State after scanning a list of operations. -/
def stateAfter (s : HState) : List Operation → HState
  | [] => s
  | op :: rest => stateAfter (stepOp s op).2 rest

/-- The phase-ejection optimizer (`EjectFullW.optimize_circuit`): one
forward pass from the all-Clean state over the circuit's operation
stream. -/
def ejectFullW (ops : List Operation) : List Operation := processOps [] ops

/-- States are kept sorted by strictly increasing qubit. -/
def SortedH (s : HState) : Prop := List.Pairwise (fun x y => x.1 < y.1) s

/-- All held phases are canonical-range representatives. -/
def CanonH (s : HState) : Prop := ∀ e ∈ s, canon e.2 = e.2

/-- A gate carrying an unresolved symbolic parameter. -/
def symbolicGate : Gate → Bool
  | .PhasedRotation (.sym _) _ => true
  | .PhasedRotation _ (.sym _) => true
  | .ZRotation (.sym _) => true
  | .ControlledPhase (.sym _) => true
  | _ => false

/-- Gates the optimizer treats as barriers regardless of its state: an
unsupported gate, or any gate with a symbolic parameter. -/
def blockerGate (g : Gate) : Bool :=
  (match g with | .Unknown _ => true | _ => false) || symbolicGate g

/-- External collaborators of the lowering pass (`ConvertToXmonGates`):
the capability-cast registry, the unitary protocol (`none` when the
operation has no computable, non-symbolic unitary; matrices are abstract
tokens since the core never performs matrix math), the two synthesis
oracles (the Boolean of the two-qubit oracle allows partial
controlled-phase gates), the structural decomposition capability, and the
native-set "keep" predicate. -/
structure XmonEnv where
  tryCast : Gate → Option Gate
  unitaryOf : Operation → Option ℕ
  synth1 : ℕ → ℕ → List Operation
  synth2 : ℕ → ℕ → ℕ → Bool → List Operation
  decomp : Operation → Option (List Operation)
  keep : Operation → Bool

/-- Translation of `ConvertToXmonGates._convert_one` from the source: first
the capability cast; then, for operations on at most two qubits with a
known unitary, circuit synthesis (the two-qubit oracle with partial
controlled-phase gates allowed); otherwise not implemented (`none`). -/
def convertOne (env : XmonEnv) (op : Operation) : Option (List Operation) :=
  match env.tryCast op.gate with
  | some g => some [⟨g, op.qubits⟩]
  | none =>
    match (if op.qubits.length ≤ 2 then env.unitaryOf op else none) with
    | none => none
    | some m =>
      match op.qubits with
      | [q] => some (env.synth1 m q)
      | [q1, q2] => some (env.synth2 m q1 q2 true)
      | _ => none

/-- Typed failures of the lowering pass. -/
inductive ConvertError where
  | UnconvertibleOperation (gate : Gate) (nQubits : ℕ)
  | DecompositionNonTermination
deriving DecidableEq, Repr

/-- Modelled from the spec: decompose each produced sub-operation in order
with the given procedure, concatenating the results and propagating the
first failure. -/
def decomposeMany (f : Operation → Except ConvertError (List Operation)) :
    List Operation → Except ConvertError (List Operation)
  | [] => .ok []
  | op :: rest =>
    match f op, decomposeMany f rest with
    | .ok h, .ok t => .ok (h ++ t)
    | .error e, _ => .error e
    | .ok _, .error e => .error e

/-- Modelled from the spec: the recursive decomposition driver
(`protocols.decompose`, absent from the sources) behind
`ConvertToXmonGates.convert` — keep native operations, otherwise let
`convertOne` intercept, otherwise ask the decomposition capability and
recurse, otherwise pass through (permissive) or fail typed; the recursion
carries an explicit depth budget whose exhaustion is the
`DecompositionNonTermination` error. -/
def decomposeFuel (env : XmonEnv) (ig : Bool) (fuel : ℕ) :
    Operation → Except ConvertError (List Operation) :=
  Nat.rec (motive := fun _ => Operation → Except ConvertError (List Operation))
    (fun _ => .error .DecompositionNonTermination)
    (fun _ prev op =>
      if env.keep op then .ok [op]
      else
        match convertOne env op with
        | some subs => decomposeMany prev subs
        | none =>
          match env.decomp op with
          | some subs => decomposeMany prev subs
          | none =>
            if ig then .ok [op]
            else .error (.UnconvertibleOperation op.gate op.qubits.length))
    fuel

/-- Translation of `ConvertToXmonGates.convert` with its iteration budget made
explicit:
`ig` is the `ignore_failures` flag. -/
def convert (env : XmonEnv) (ig : Bool) (fuel : ℕ) (op : Operation) :
    Except ConvertError (List Operation) :=
  decomposeFuel env ig fuel op

/-- An environment in which every lowering strategy fails. -/
def envNone : XmonEnv where
  tryCast := fun _ => none
  unitaryOf := fun _ => none
  synth1 := fun _ _ => []
  synth2 := fun _ _ _ _ => []
  decomp := fun _ => none
  keep := fun _ => false

/-- An environment whose decomposition capability violates its contract by
returning every operation unchanged, producing an unbounded rewrite chain. -/
def envCyclic : XmonEnv where
  tryCast := fun _ => none
  unitaryOf := fun _ => none
  synth1 := fun _ _ => []
  synth2 := fun _ _ _ _ => []
  decomp := fun op => some [op]
  keep := fun _ => false

/-- An environment exercising the synthesis branches: casting fails, every
operation exposes unitary token `7`, and the oracles return recognizable
native sequences. -/
def envSynth : XmonEnv where
  tryCast := fun _ => none
  unitaryOf := fun _ => some 7
  synth1 := fun m q => [⟨.ZRotation (.num (m : ℚ)), [q]⟩]
  synth2 := fun m q1 q2 ap =>
    [⟨.ControlledPhase (.num (if ap then (m : ℚ) else 0)), [q1, q2]⟩]
  decomp := fun _ => none
  keep := fun _ => false

/-- An environment whose capability cast always succeeds, to exercise the
first strategy. -/
def envCast : XmonEnv where
  tryCast := fun _ => some (.ZRotation (.num 1))
  unitaryOf := fun _ => some 7
  synth1 := fun _ _ => []
  synth2 := fun _ _ _ _ => []
  decomp := fun _ => none
  keep := fun _ => false

/-- Index of a qubit within a measurement's ordered qubit tuple. -/
def idxOf (a : ℕ) : List ℕ → ℕ
  | [] => 0
  | q :: qs => if q = a then 0 else idxOf a qs + 1

/-- Effective invert-mask entry at an index: absent entries default to
`false`. -/
def maskVal (m : List Bool) (i : ℕ) : Bool := m.getD i false

/-- Evaluate `canon` by exhibiting the even integer shift onto `(-1, 1]`. -/
theorem canon_eval (x y : ℚ) (k : ℤ) (hy : x - 2 * k = y) (h1 : -1 < y)
    (h2 : y ≤ 1) : canon x = y := by
  have hc : (⌈(x - 1) / 2⌉ : ℤ) = k := by
    rw [Int.ceil_eq_iff]
    constructor <;> linarith
  rw [canon, hc, hy]

/-- Values already in the canonical range are fixed by `canon`. -/
theorem canon_eq_self (x : ℚ) (h1 : -1 < x) (h2 : x ≤ 1) : canon x = x :=
  canon_eval x x 0 (by norm_num) h1 h2

/-- The canonical representative lies in `(-1, 1]`. -/
theorem canon_mem (x : ℚ) : -1 < canon x ∧ canon x ≤ 1 := by
  have h1 := Int.le_ceil ((x - 1) / 2)
  have h2 := Int.ceil_lt_add_one ((x - 1) / 2)
  constructor <;> (rw [canon]; linarith)

/-- Canonicalization is idempotent. -/
theorem canon_idem (x : ℚ) : canon (canon x) = canon x :=
  canon_eq_self _ (canon_mem x).1 (canon_mem x).2

theorem canon_one : canon 1 = 1 := canon_eq_self 1 (by norm_num) le_rfl

theorem canon_zero : canon 0 = 0 := canon_eq_self 0 (by norm_num) (by norm_num)

/-- The defect `x - canon x` is twice an integer. -/
theorem canon_shift (x : ℚ) : ∃ k : ℤ, x - canon x = 2 * k :=
  ⟨⌈(x - 1) / 2⌉, by rw [canon]; ring⟩

/-- Twice the defect is annihilated by `canon`. -/
theorem canon_two_mul_shift (x : ℚ) : canon (2 * (x - canon x)) = 0 := by
  obtain ⟨k, hk⟩ := canon_shift x
  exact canon_eval _ _ (2 * k) (by push_cast; rw [hk]; ring) (by norm_num)
    (by norm_num)

theorem lookupH_eq_none (s : HState) (a : ℕ) (h : ∀ e ∈ s, e.1 ≠ a) :
    lookupH s a = none := by
  induction s with
  | nil => rfl
  | cons e rest ih =>
    obtain ⟨q, w⟩ := e
    have hq : q ≠ a := h (q, w) (List.mem_cons_self _ _)
    have hq' : ¬(a = q) := fun hh => hq hh.symm
    simp only [lookupH, if_neg hq']
    exact ih fun e he => h e (List.mem_cons_of_mem _ he)

theorem setH_of_forall_lt (s : HState) (a : ℕ) (v : ℚ)
    (h : ∀ e ∈ s, e.1 < a) : setH s a v = s ++ [(a, v)] := by
  induction s with
  | nil => rfl
  | cons e rest ih =>
    obtain ⟨q, w⟩ := e
    have hq : q < a := h (q, w) (List.mem_cons_self _ _)
    simp only [setH, if_neg (by omega : ¬a < q), if_neg (by omega : ¬a = q),
      List.cons_append]
    rw [ih fun e he => h e (List.mem_cons_of_mem _ he)]

theorem mem_setH (s : HState) (a : ℕ) (v : ℚ) (e : ℕ × ℚ)
    (he : e ∈ setH s a v) : e ∈ s ∨ e = (a, v) := by
  induction s with
  | nil => simp only [setH, List.mem_singleton] at he; exact Or.inr he
  | cons f rest ih =>
    obtain ⟨q, w⟩ := f
    by_cases h1 : a < q
    · simp only [setH, if_pos h1, List.mem_cons] at he
      rcases he with h | h | h
      · exact Or.inr h
      · exact Or.inl (by simp [h])
      · exact Or.inl (List.mem_cons_of_mem _ h)
    · by_cases h2 : a = q
      · simp only [setH, if_neg h1, if_pos h2, List.mem_cons] at he
        rcases he with h | h
        · exact Or.inr h
        · exact Or.inl (List.mem_cons_of_mem _ h)
      · simp only [setH, if_neg h1, if_neg h2, List.mem_cons] at he
        rcases he with h | h
        · exact Or.inl (by simp [h])
        · rcases ih h with h | h
          · exact Or.inl (List.mem_cons_of_mem _ h)
          · exact Or.inr h

theorem setH_sorted (s : HState) (a : ℕ) (v : ℚ) (hs : SortedH s) :
    SortedH (setH s a v) := by
  induction s with
  | nil => simp [setH, SortedH]
  | cons f rest ih =>
    obtain ⟨q, w⟩ := f
    rw [SortedH, List.pairwise_cons] at hs
    obtain ⟨hq, hrest⟩ := hs
    by_cases h1 : a < q
    · rw [SortedH] at *
      simp only [setH, if_pos h1]
      refine List.Pairwise.cons ?_ (List.Pairwise.cons hq hrest)
      intro e he
      rcases List.mem_cons.mp he with h | h
      · simp [h, h1]
      · have := hq e h; simp; omega
    · by_cases h2 : a = q
      · rw [SortedH] at *
        simp only [setH, if_neg h1, if_pos h2]
        exact List.Pairwise.cons (fun e he => by have := hq e he; simp; omega)
          hrest
      · rw [SortedH] at *
        simp only [setH, if_neg h1, if_neg h2]
        refine List.Pairwise.cons ?_ (ih hrest)
        intro e he
        rcases mem_setH rest a v e he with h | h
        · exact hq e h
        · simp [h]; omega

theorem setH_canon (s : HState) (a : ℕ) (v : ℚ) (hc : CanonH s)
    (hv : canon v = v) : CanonH (setH s a v) := by
  intro e he
  rcases mem_setH s a v e he with h | h
  · exact hc e h
  · simp [h, hv]

theorem filter_sorted (s : HState) (p : ℕ × ℚ → Bool) (hs : SortedH s) :
    SortedH (s.filter p) :=
  List.Pairwise.sublist (List.filter_sublist s) hs

theorem filter_canon (s : HState) (p : ℕ × ℚ → Bool) (hc : CanonH s) :
    CanonH (s.filter p) :=
  fun e he => hc e (List.mem_filter.mp he).1

theorem processOps_eq (s : HState) (L : List Operation) :
    processOps s L = emitList s L ++ (stateAfter s L).map toW := by
  induction L generalizing s with
  | nil => simp [processOps, emitList, stateAfter]
  | cons op rest ih =>
    simp only [processOps, emitList, stateAfter, ih, List.append_assoc]

theorem stateAfter_append (s : HState) (L1 L2 : List Operation) :
    stateAfter s (L1 ++ L2) = stateAfter (stateAfter s L1) L2 := by
  induction L1 generalizing s with
  | nil => rfl
  | cons op rest ih =>
    simp only [List.cons_append, stateAfter, List.append_eq, ih]

theorem emitList_append (s : HState) (L1 L2 : List Operation) :
    emitList s (L1 ++ L2) = emitList s L1 ++ emitList (stateAfter s L1) L2 := by
  induction L1 generalizing s with
  | nil => rfl
  | cons op rest ih =>
    simp only [List.cons_append, emitList, stateAfter, List.append_eq, ih,
      List.append_assoc]

theorem processOps_append (s : HState) (L1 L2 : List Operation) :
    processOps s (L1 ++ L2) = emitList s L1 ++ processOps (stateAfter s L1) L2 := by
  rw [processOps_eq, emitList_append, stateAfter_append, List.append_assoc,
    ← processOps_eq]

/-- Scanning a flush block (deferred rotations on strictly ascending fresh
qubits) re-holds each rotation: nothing is emitted and the state is
extended by exactly the flushed entries. -/
theorem holdRun (t : HState) (s : HState) (h : SortedH (s ++ t))
    (hc : CanonH t) :
    emitList s (t.map toW) = [] ∧ stateAfter s (t.map toW) = s ++ t := by
  induction t generalizing s with
  | nil => exact ⟨rfl, by simp [stateAfter]⟩
  | cons e t' ih =>
    obtain ⟨q, f⟩ := e
    have hcross := (List.pairwise_append.mp h).2.2
    have hlt : ∀ x ∈ s, x.1 < q :=
      fun x hx => hcross x hx (q, f) (List.mem_cons_self _ _)
    have hnone : lookupH s q = none :=
      lookupH_eq_none s q fun x hx => Nat.ne_of_lt (hlt x hx)
    have hstep : stepOp s (toW (q, f)) = ([], s ++ [(q, f)]) := by
      have h1 := hc (q, f) (List.mem_cons_self _ _)
      simp only at h1
      simp only [toW, stepOp, stepW, hnone, canon_one, eq_self_iff_true,
        ite_true, h1]
      rw [setH_of_forall_lt s q f hlt]
    have hre : s ++ (q, f) :: t' = (s ++ [(q, f)]) ++ t' := by simp
    have ih' := ih (s ++ [(q, f)]) (by rw [← hre]; exact h)
      (fun e he => hc e (List.mem_cons_of_mem _ he))
    refine ⟨?_, ?_⟩
    · simp only [List.map_cons, emitList, hstep, ih'.1, List.nil_append]
    · simp only [List.map_cons, stateAfter, hstep, ih'.2]
      rw [hre]

theorem dischargeMask_nil (qs : List ℕ) (m : List Bool) :
    dischargeMask [] qs m = m := by
  induction qs generalizing m with
  | nil => rfl
  | cons q qs ih =>
    cases m with
    | nil => simp [dischargeMask, lookupH, padCons, ih]
    | cons b r => simp [dischargeMask, lookupH, padCons, ih]

theorem passW (p t : ℚ) (a : ℕ) (h : ¬canon t = 1) :
    stepOp [] ⟨.PhasedRotation (.num p) (.num t), [a]⟩ =
      ([⟨.PhasedRotation (.num p) (.num t), [a]⟩], []) := by
  simp [stepOp, stepW, lookupH, h]

theorem passZ (t : ℚ) (a : ℕ) :
    stepOp [] ⟨.ZRotation (.num t), [a]⟩ =
      ([⟨.ZRotation (.num t), [a]⟩], []) := rfl

theorem passCZ (t : ℚ) (a b : ℕ) :
    stepOp [] ⟨.ControlledPhase (.num t), [a, b]⟩ =
      ([⟨.ControlledPhase (.num t), [a, b]⟩], []) := rfl

theorem passMeas (key : String) (mask : List Bool) (qs : List ℕ) :
    stepOp [] ⟨.Measurement key mask, qs⟩ =
      ([⟨.Measurement key mask, qs⟩], []) := by
  simp [stepOp, stepMeas, dischargeMask_nil]

/-- A list of operations that the scan passes through unchanged from the
all-Clean state emits itself and ends Clean. -/
theorem emit_all_pass (L : List Operation)
    (h : ∀ op ∈ L, stepOp [] op = ([op], [])) :
    emitList [] L = L ∧ stateAfter [] L = [] := by
  induction L with
  | nil => exact ⟨rfl, rfl⟩
  | cons op rest ih =>
    have h1 := h op (List.mem_cons_self _ _)
    have ih' := ih fun o ho => h o (List.mem_cons_of_mem _ ho)
    exact ⟨by simp [emitList, h1, ih'.1], by simp [stateAfter, h1, ih'.2]⟩

/-- Chunk analysis for a barrier step: rescanning the emitted block from the
all-Clean state re-holds the flushed rotations and re-flushes them before
the same blocking operation, reproducing the block and ending Clean. -/
theorem barrier_chunk (s : HState) (op : Operation) (hs : SortedH s)
    (hc : CanonH s) (hb : ∀ s' : HState, stepOp s' op = stepBarrier s' op) :
    emitList [] (stepOp s op).1 = (stepOp s op).1 ∧
    stateAfter [] (stepOp s op).1 = [] ∧
    SortedH (stepOp s op).2 ∧ CanonH (stepOp s op).2 := by
  have hfs : SortedH (s.filter (fun e => decide (e.1 ∈ op.qubits))) :=
    filter_sorted _ _ hs
  have hfc : CanonH (s.filter (fun e => decide (e.1 ∈ op.qubits))) :=
    filter_canon _ _ hc
  have hself : (s.filter (fun e => decide (e.1 ∈ op.qubits))).filter
      (fun e => decide (e.1 ∈ op.qubits)) =
      s.filter (fun e => decide (e.1 ∈ op.qubits)) :=
    List.filter_eq_self.mpr fun e he => (List.mem_filter.mp he).2
  have hnil : (s.filter (fun e => decide (e.1 ∈ op.qubits))).filter
      (fun e => decide (e.1 ∉ op.qubits)) = [] := by
    refine List.filter_eq_nil_iff.mpr fun e he => ?_
    have := (List.mem_filter.mp he).2
    simp only [decide_eq_true_eq] at this ⊢
    exact fun hn => hn this
  have hstep2 : stepOp (s.filter (fun e => decide (e.1 ∈ op.qubits))) op =
      ((s.filter (fun e => decide (e.1 ∈ op.qubits))).map toW ++ [op], []) := by
    rw [hb, stepBarrier, hself, hnil]
  have hrun := holdRun (s.filter (fun e => decide (e.1 ∈ op.qubits))) []
    hfs hfc
  refine ⟨?_, ?_, ?_, ?_⟩
  · rw [hb, stepBarrier, emitList_append, hrun.1, hrun.2]
    simp [emitList, hstep2]
  · rw [hb, stepBarrier, stateAfter_append, hrun.2]
    simp [stateAfter, hstep2]
  · rw [hb, stepBarrier]
    exact filter_sorted _ _ hs
  · rw [hb, stepBarrier]
    exact filter_canon _ _ hc

/-- Chunk analysis: rescanning the output block of any single step from the
all-Clean state reproduces the block verbatim and ends Clean; moreover the
step preserves sortedness and canonicity of the scanning state. -/
theorem chunk_fixed (s : HState) (op : Operation) (hs : SortedH s)
    (hc : CanonH s) :
    emitList [] (stepOp s op).1 = (stepOp s op).1 ∧
    stateAfter [] (stepOp s op).1 = [] ∧
    SortedH (stepOp s op).2 ∧ CanonH (stepOp s op).2 := by
  obtain ⟨g, qs⟩ := op
  cases g with
  | PhasedRotation p t =>
    cases p with
    | sym k => exact barrier_chunk s _ hs hc fun s' => rfl
    | num pv =>
      cases t with
      | sym k => exact barrier_chunk s _ hs hc fun s' => rfl
      | num tv =>
        match qs with
        | [] => exact barrier_chunk s _ hs hc fun s' => rfl
        | a :: b :: r => exact barrier_chunk s _ hs hc fun s' => rfl
        | [a] =>
          have hso : stepOp s ⟨.PhasedRotation (.num pv) (.num tv), [a]⟩ =
              stepW s ⟨.PhasedRotation (.num pv) (.num tv), [a]⟩ a pv tv := rfl
          rw [hso]
          rcases hl : lookupH s a with _ | f
          · by_cases h1 : canon tv = 1
            · simp only [stepW, hl, if_pos h1]
              exact ⟨rfl, rfl, setH_sorted s a (canon pv) hs,
                setH_canon s a (canon pv) hc (canon_idem pv)⟩
            · simp only [stepW, hl, if_neg h1]
              exact ⟨by simp [emitList, passW pv tv a h1],
                by simp [stateAfter, passW pv tv a h1], hs, hc⟩
          · by_cases h1 : canon tv = 1
            · simp only [stepW, hl, if_pos h1]
              have hes : SortedH (eraseH s a) := filter_sorted s _ hs
              have hec : CanonH (eraseH s a) := filter_canon s _ hc
              by_cases h0 : canon (2 * (pv - f)) = 0
              · simp only [if_pos h0]
                exact ⟨rfl, rfl, hes, hec⟩
              · simp only [if_neg h0]
                exact ⟨by simp [emitList, passZ],
                  by simp [stateAfter, passZ], hes, hec⟩
            · simp only [stepW, hl, if_neg h1]
              exact ⟨by simp [emitList, passW _ tv a h1],
                by simp [stateAfter, passW _ tv a h1], hs, hc⟩
  | ZRotation t =>
    cases t with
    | sym k => exact barrier_chunk s _ hs hc fun s' => rfl
    | num tv =>
      match qs with
      | [] => exact barrier_chunk s _ hs hc fun s' => rfl
      | a :: b :: r => exact barrier_chunk s _ hs hc fun s' => rfl
      | [a] =>
        have hso : stepOp s ⟨.ZRotation (.num tv), [a]⟩ =
            stepZ s ⟨.ZRotation (.num tv), [a]⟩ a tv := rfl
        rw [hso]
        rcases hl : lookupH s a with _ | f
        · simp only [stepZ, hl]
          exact ⟨by simp [emitList, passZ], by simp [stateAfter, passZ],
            hs, hc⟩
        · simp only [stepZ, hl]
          exact ⟨rfl, rfl, setH_sorted s a _ hs,
            setH_canon s a _ hc (canon_idem _)⟩
  | ControlledPhase t =>
    cases t with
    | sym k => exact barrier_chunk s _ hs hc fun s' => rfl
    | num tv =>
      match qs with
      | [] => exact barrier_chunk s _ hs hc fun s' => rfl
      | [a] => exact barrier_chunk s _ hs hc fun s' => rfl
      | a :: b :: c :: r => exact barrier_chunk s _ hs hc fun s' => rfl
      | [a, b] =>
        have hso : stepOp s ⟨.ControlledPhase (.num tv), [a, b]⟩ =
            stepCZ s ⟨.ControlledPhase (.num tv), [a, b]⟩ a b tv := rfl
        rw [hso]
        rcases hla : lookupH s a with _ | fa <;>
          rcases hlb : lookupH s b with _ | fb
        · simp only [stepCZ, hla, hlb]
          exact ⟨by simp [emitList, passCZ], by simp [stateAfter, passCZ],
            hs, hc⟩
        · simp only [stepCZ, hla, hlb]
          refine ⟨?_, ?_, hs, hc⟩
          · have hp := emit_all_pass
              [⟨.ZRotation (.num (canon tv)), [a]⟩,
               ⟨.ControlledPhase (.num (canon (-tv))), [a, b]⟩] ?_
            · exact hp.1
            · intro o ho
              rcases List.mem_cons.mp ho with h | h
              · rw [h]; exact passZ _ a
              · rw [List.mem_singleton.mp h]; exact passCZ _ a b
          · have hp := emit_all_pass
              [⟨.ZRotation (.num (canon tv)), [a]⟩,
               ⟨.ControlledPhase (.num (canon (-tv))), [a, b]⟩] ?_
            · exact hp.2
            · intro o ho
              rcases List.mem_cons.mp ho with h | h
              · rw [h]; exact passZ _ a
              · rw [List.mem_singleton.mp h]; exact passCZ _ a b
        · simp only [stepCZ, hla, hlb]
          refine ⟨?_, ?_, hs, hc⟩
          · have hp := emit_all_pass
              [⟨.ZRotation (.num (canon tv)), [b]⟩,
               ⟨.ControlledPhase (.num (canon (-tv))), [a, b]⟩] ?_
            · exact hp.1
            · intro o ho
              rcases List.mem_cons.mp ho with h | h
              · rw [h]; exact passZ _ b
              · rw [List.mem_singleton.mp h]; exact passCZ _ a b
          · have hp := emit_all_pass
              [⟨.ZRotation (.num (canon tv)), [b]⟩,
               ⟨.ControlledPhase (.num (canon (-tv))), [a, b]⟩] ?_
            · exact hp.2
            · intro o ho
              rcases List.mem_cons.mp ho with h | h
              · rw [h]; exact passZ _ b
              · rw [List.mem_singleton.mp h]; exact passCZ _ a b
        · simp only [stepCZ, hla, hlb]
          exact ⟨by simp [emitList, passCZ], by simp [stateAfter, passCZ],
            setH_sorted _ b _ (setH_sorted s a _ hs),
            setH_canon _ b _ (setH_canon s a _ hc (canon_idem _))
              (canon_idem _)⟩
  | Measurement key mask =>
    have hso : stepOp s ⟨.Measurement key mask, qs⟩ =
        stepMeas s key mask qs := rfl
    rw [hso]
    simp only [stepMeas]
    exact ⟨by simp [emitList, passMeas], by simp [stateAfter, passMeas],
      filter_sorted s _ hs, filter_canon s _ hc⟩
  | Unknown i => exact barrier_chunk s _ hs hc fun s' => rfl

/-- A full pass from any sorted canonical state produces a stream that the
pass from the all-Clean state maps to itself. -/
theorem processOps_fixed (L : List Operation) (s : HState) (hs : SortedH s)
    (hc : CanonH s) : processOps [] (processOps s L) = processOps s L := by
  induction L generalizing s with
  | nil =>
    have hrun := holdRun s [] hs hc
    show processOps [] (s.map toW) = s.map toW
    rw [processOps_eq, hrun.1, hrun.2]
    simp [processOps]
  | cons op rest ih =>
    have hch := chunk_fixed s op hs hc
    show processOps [] ((stepOp s op).1 ++ processOps (stepOp s op).2 rest) =
      (stepOp s op).1 ++ processOps (stepOp s op).2 rest
    rw [processOps_append, hch.1, hch.2.1,
      ih (stepOp s op).2 hch.2.2.1 hch.2.2.2]

/-- C1: running the phase-ejection optimizer on its own output is a no-op:
for every circuit (stream of operations in moment order),
`ejectFullW (ejectFullW ops) = ejectFullW ops`. Literal stream equality is
proved, which implies moment-wise operation-set equality for any consistent
re-grouping into moments. -/
theorem ejectFullW_idempotent (ops : List Operation) :
    ejectFullW (ejectFullW ops) = ejectFullW ops :=
  processOps_fixed ops [] (List.Pairwise.nil) (fun e he => absurd he
    (List.not_mem_nil e))

theorem dischargeMask_not_held (s : HState) (qs : List ℕ) (m : List Bool)
    (h : ∀ q ∈ qs, lookupH s q = none) : dischargeMask s qs m = m := by
  induction qs generalizing m with
  | nil => rfl
  | cons q qs ih =>
    have hq := h q (List.mem_cons_self _ _)
    have ih' := ih m.tail fun x hx => h x (List.mem_cons_of_mem _ hx)
    rw [dischargeMask, hq]
    simp only [Option.isSome_none, Bool.false_eq_true, if_false, ih']
    cases m with
    | nil => rfl
    | cons b r => rfl

theorem flipMask_isEmpty (m : List Bool) (i : ℕ) :
    (flipMask m i).isEmpty = false := by
  cases m <;> cases i <;> rfl

theorem dischargeMask_eq_flip (s : HState) (qs : List ℕ) (m : List Bool)
    (a : ℕ) (f : ℚ) (ha : lookupH s a = some f) (hnd : qs.Nodup)
    (hmem : a ∈ qs) (hothers : ∀ q ∈ qs, q ≠ a → lookupH s q = none) :
    dischargeMask s qs m = flipMask m (idxOf a qs) := by
  induction qs generalizing m with
  | nil => exact absurd hmem (List.not_mem_nil a)
  | cons q qs ih =>
    by_cases hq : q = a
    · subst hq
    -- head is the held qubit; the tail holds nothing
      have htail : ∀ x ∈ qs, lookupH s x = none := by
        intro x hx
        have hxa : x ≠ q := fun hh =>
          (List.nodup_cons.mp hnd).1 (hh ▸ hx)
        exact hothers x (List.mem_cons_of_mem _ hx) hxa
      rw [dischargeMask, ha]
      simp only [Option.isSome_some, if_true, idxOf, if_pos rfl,
        dischargeMask_not_held s qs m.tail htail]
      cases m with
      | nil => rfl
      | cons b r => rfl
    · have hqn : lookupH s q = none :=
        hothers q (List.mem_cons_self _ _) hq
      have hmem' : a ∈ qs := by
        rcases List.mem_cons.mp hmem with h | h
        · exact absurd h.symm hq
        · exact h
      have ih' := ih m.tail (List.nodup_cons.mp hnd).2 hmem'
        fun x hx hxa => hothers x (List.mem_cons_of_mem _ hx) hxa
      rw [dischargeMask, hqn]
      simp only [Option.isSome_none, Bool.false_eq_true, if_false, ih',
        idxOf, if_neg hq]
      cases m with
      | nil =>
        simp only [padCons, List.tail_nil, flipMask]
        rw [flipMask_isEmpty]
        simp
      | cons b r => rfl

theorem flipMask_maskVal_ne (i : ℕ) (m : List Bool) (j : ℕ) (h : j ≠ i) :
    maskVal (flipMask m i) j = maskVal m j := by
  induction i generalizing m j with
  | zero =>
    cases m with
    | nil =>
      cases j with
      | zero => exact absurd rfl h
      | succ k => simp [flipMask, maskVal, List.getD]
    | cons b r =>
      cases j with
      | zero => exact absurd rfl h
      | succ k => simp [flipMask, maskVal, List.getD]
  | succ n ih =>
    cases m with
    | nil =>
      cases j with
      | zero => simp [flipMask, maskVal, List.getD]
      | succ k =>
        simp only [flipMask, maskVal, List.getD_cons_succ]
        exact ih [] k fun hh => h (by rw [hh])
    | cons b r =>
      cases j with
      | zero => simp [flipMask, maskVal, List.getD]
      | succ k =>
        simp only [flipMask, maskVal, List.getD_cons_succ]
        exact ih r k fun hh => h (by rw [hh])

theorem flipMask_maskVal_eq (i : ℕ) (m : List Bool) :
    maskVal (flipMask m i) i = !(maskVal m i) := by
  induction i generalizing m with
  | zero =>
    cases m with
    | nil => rfl
    | cons b r => rfl
  | succ n ih =>
    cases m with
    | nil =>
      simp only [flipMask, maskVal, List.getD_cons_succ]
      exact ih []
    | cons b r =>
      simp only [flipMask, maskVal, List.getD_cons_succ]
      exact ih r

theorem lookupH_isSome_of_mem (s : HState) (e : ℕ × ℚ) (he : e ∈ s) :
    (lookupH s e.1).isSome = true := by
  induction s with
  | nil => exact absurd he (List.not_mem_nil e)
  | cons f rest ih =>
    obtain ⟨q, w⟩ := f
    by_cases hq : e.1 = q
    · simp [lookupH, hq]
    · rcases List.mem_cons.mp he with h | h
      · exact absurd (by rw [h]) hq
      · simp only [lookupH, if_neg hq]
        exact ih h

/-- C6: when the optimizer holds phase `f` on qubit `a` and encounters a
second full rotation with phase `p`, both gates are replaced by the single
`ZRotation(turns = canon (2(p - f)))` — dropped entirely when that value is
`0`, i.e. when the rotation is the identity — and `a` becomes Clean; in
particular two consecutive full rotations with equal phase on one qubit
reduce to nothing. -/
theorem annihilate_full_w (s : HState) (a : ℕ) (f p : ℚ)
    (h : lookupH s a = some f) :
    stepOp s ⟨.PhasedRotation (.num p) (.num 1), [a]⟩ =
      ((if canon (2 * (p - f)) = 0 then []
        else [⟨.ZRotation (.num (canon (2 * (p - f)))), [a]⟩]), eraseH s a)
    ∧ ∀ p0 : ℚ, ejectFullW
        [⟨.PhasedRotation (.num p0) (.num 1), [a]⟩,
         ⟨.PhasedRotation (.num p0) (.num 1), [a]⟩] = [] := by
  constructor
  · show stepW s ⟨.PhasedRotation (.num p) (.num 1), [a]⟩ a p 1 = _
    simp [stepW, h, canon_one]
  · intro p0
    simp [ejectFullW, processOps, stepOp, stepW, lookupH, setH, eraseH,
      canon_one, canon_two_mul_shift]

theorem annihilate_full_w_witness :
    stepOp [(0, 1/4)] ⟨.PhasedRotation (.num (1/8)) (.num 1), [0]⟩ =
      ([⟨.ZRotation (.num (-(1/4))), [0]⟩], [])
    ∧ ejectFullW [⟨.PhasedRotation (.num (1/4)) (.num 1), [0]⟩,
        ⟨.PhasedRotation (.num (1/4)) (.num 1), [0]⟩] = [] := by
  have h := annihilate_full_w [(0, 1/4)] 0 (1/4) (1/8) rfl
  refine ⟨?_, h.2 (1/4)⟩
  rw [h.1]
  have hc : canon (2 * ((1/8 : ℚ) - 1/4)) = -(1/4) :=
    canon_eval _ _ 0 (by norm_num) (by norm_num) (by norm_num)
  rw [hc]
  norm_num [eraseH]

/-- C7: when the optimizer holds phase `f` on qubit `a` and encounters a
controlled-phase gate with numeric turns `t` on `(a, b)` with `b` Clean, it
emits `ZRotation(canon t)` on `b` immediately before the controlled-phase
gate rewritten with negated turns `canon (-t)`, while `a` stays
`Holding f` and `b` stays Clean (state unchanged), so the held rotation is
re-emitted after the rewritten gate; the specification's example
reproduces exactly. -/
theorem cross_cz (s : HState) (a b : ℕ) (f t : ℚ)
    (ha : lookupH s a = some f) (hb : lookupH s b = none) :
    stepOp s ⟨.ControlledPhase (.num t), [a, b]⟩ =
      ([⟨.ZRotation (.num (canon t)), [b]⟩,
        ⟨.ControlledPhase (.num (canon (-t))), [a, b]⟩], s)
    ∧ ejectFullW
        [⟨.PhasedRotation (.num (1/4)) (.num 1), [0]⟩,
         ⟨.ControlledPhase (.num (1/4)), [0, 1]⟩] =
      [⟨.ZRotation (.num (1/4)), [1]⟩,
       ⟨.ControlledPhase (.num (-(1/4))), [0, 1]⟩,
       ⟨.PhasedRotation (.num (1/4)) (.num 1), [0]⟩] := by
  constructor
  · show stepCZ s ⟨.ControlledPhase (.num t), [a, b]⟩ a b t = _
    simp [stepCZ, ha, hb]
  · have h1 : canon (4⁻¹ : ℚ) = 4⁻¹ :=
      canon_eq_self _ (by norm_num) (by norm_num)
    have h2 : canon (-4⁻¹ : ℚ) = -4⁻¹ :=
      canon_eq_self _ (by norm_num) (by norm_num)
    simp [ejectFullW, processOps, stepOp, stepW, stepCZ, lookupH, setH, toW,
      canon_one, h1, h2]

theorem cross_cz_witness :
    stepOp [(0, 1/4)] ⟨.ControlledPhase (.num (1/4)), [0, 1]⟩ =
      ([⟨.ZRotation (.num (1/4)), [1]⟩,
        ⟨.ControlledPhase (.num (-(1/4))), [0, 1]⟩], [(0, 1/4)]) := by
  have h := (cross_cz [(0, 1/4)] 0 1 (1/4) (1/4) rfl rfl).1
  rw [h]
  have h1 : canon (1/4 : ℚ) = 1/4 :=
    canon_eq_self _ (by norm_num) (by norm_num)
  have h2 : canon (-(1/4) : ℚ) = -(1/4) :=
    canon_eq_self _ (by norm_num) (by norm_num)
  rw [h1, h2]

/-- Discharging flips the effective mask entry of every held measured
qubit, whatever the rest of the state holds. -/
theorem dischargeMask_maskVal_held (s : HState) (qs : List ℕ)
    (m : List Bool) (a : ℕ) (hmem : a ∈ qs) (hnd : qs.Nodup)
    (ha : (lookupH s a).isSome = true) :
    maskVal (dischargeMask s qs m) (idxOf a qs) =
      !(maskVal m (idxOf a qs)) := by
  induction qs generalizing m with
  | nil => exact absurd hmem (List.not_mem_nil a)
  | cons q qs ih =>
    by_cases hq : q = a
    · subst hq
      rw [dischargeMask, if_pos ha]
      simp only [idxOf, if_pos rfl]
      cases m with
      | nil => rfl
      | cons b r => rfl
    · have hmem' : a ∈ qs := by
        rcases List.mem_cons.mp hmem with h | h
        · exact absurd h.symm hq
        · exact h
      have ih' := ih m.tail hmem' (List.nodup_cons.mp hnd).2
      simp only [idxOf, if_neg hq]
      by_cases hqh : (lookupH s q).isSome = true
      · rw [dischargeMask, if_pos hqh]
        simp only [maskVal, List.getD_cons_succ]
        rw [maskVal] at ih'
        rw [ih']
        cases m with
        | nil => rfl
        | cons b r => rfl
      · rw [dischargeMask, if_neg hqh]
        cases m with
        | nil =>
          simp only [List.tail_nil] at ih' ⊢
          rcases ht : dischargeMask s qs [] with _ | ⟨x, xs⟩
          · rw [ht] at ih'
            simp [maskVal, List.getD] at ih'
          · rw [ht] at ih'
            simp only [padCons, List.isEmpty_cons, Bool.false_eq_true,
              if_false]
            simp only [maskVal, List.getD_cons_succ, List.getD_nil]
            simpa [maskVal, List.getD_nil] using ih'
        | cons b r =>
          simp only [padCons, maskVal, List.getD_cons_succ]
          simpa [maskVal] using ih'

/-- Clearing the measured qubits leaves none of them held. -/
theorem lookupH_filter_not_mem (s : HState) (qs : List ℕ) (a : ℕ)
    (hmem : a ∈ qs) :
    lookupH (s.filter (fun e => decide (e.1 ∉ qs))) a = none := by
  apply lookupH_eq_none
  intro e he
  have hp := (List.mem_filter.mp he).2
  simp only [decide_eq_true_eq] at hp
  intro hea
  exact hp (hea ▸ hmem)

/-- C8: when the optimizer holds a full rotation on qubit `a` (for every
value of the held phase `f`, and with no assumption on the other qubits'
state) and encounters a measurement whose qubit tuple contains `a`: the
output is the single rewritten measurement — the held rotation is dropped
with no gate emitted — `a`'s effective boolean entry of the invert mask is
flipped, and `a` becomes Clean; the test suite's single and multiple
discharge examples reproduce exactly. -/
theorem discharge_measurement (s : HState) (a : ℕ) (f : ℚ) (key : String)
    (mask : List Bool) (qs : List ℕ) (ha : lookupH s a = some f)
    (hmem : a ∈ qs) (hnd : qs.Nodup) :
    (stepOp s ⟨.Measurement key mask, qs⟩).1 =
      [⟨.Measurement key (dischargeMask s qs mask), qs⟩]
    ∧ maskVal (dischargeMask s qs mask) (idxOf a qs) =
      !(maskVal mask (idxOf a qs))
    ∧ lookupH (stepOp s ⟨.Measurement key mask, qs⟩).2 a = none
    ∧ ejectFullW
        [⟨.PhasedRotation (.num (1/4)) (.num 1), [0]⟩,
         ⟨.Measurement "" [], [0, 1]⟩] =
      [⟨.Measurement "" [true], [0, 1]⟩]
    ∧ ejectFullW
        [⟨.PhasedRotation (.num (1/4)) (.num 1), [0]⟩,
         ⟨.PhasedRotation (.num (1/4)) (.num 1), [1]⟩,
         ⟨.Measurement "" [], [0, 1]⟩] =
      [⟨.Measurement "" [true, true], [0, 1]⟩] := by
  refine ⟨rfl, ?_, ?_, ?_, ?_⟩
  · exact dischargeMask_maskVal_held s qs mask a hmem hnd
      (by rw [ha]; rfl)
  · exact lookupH_filter_not_mem s qs a hmem
  · have h1 : canon (4⁻¹ : ℚ) = 4⁻¹ :=
      canon_eq_self _ (by norm_num) (by norm_num)
    simp [ejectFullW, processOps, stepOp, stepW, stepMeas, dischargeMask,
      lookupH, setH, padCons, canon_one, h1]
  · have h1 : canon (4⁻¹ : ℚ) = 4⁻¹ :=
      canon_eq_self _ (by norm_num) (by norm_num)
    simp [ejectFullW, processOps, stepOp, stepW, stepMeas, dischargeMask,
      lookupH, setH, padCons, canon_one, h1]

theorem discharge_measurement_witness :
    (stepOp [(0, 1/4)] ⟨.Measurement "" [], [0, 1]⟩).1 =
      [⟨.Measurement "" [true], [0, 1]⟩]
    ∧ maskVal (dischargeMask [(0, 1/4)] [0, 1] []) 0 = !(maskVal [] 0)
    ∧ lookupH (stepOp [(0, 1/4)] ⟨.Measurement "" [], [0, 1]⟩).2 0 =
      none := by
  have h := discharge_measurement [(0, 1/4)] 0 (1/4) "" [] [0, 1] rfl
    (by decide) (by decide)
  refine ⟨?_, ?_, h.2.2.1⟩
  · rw [h.1]
    simp [dischargeMask, lookupH, padCons]
  · simpa [idxOf] using h.2.1

/-- C10: discharging a held rotation into a measurement only flips the held
qubit's entry of the invert mask: the single rewritten operation keeps the
key and the ordered qubit tuple, the effective mask entry of every other
index is exactly as before, and the held qubit's entry is exactly
toggled. -/
theorem discharge_measurement_frame (s : HState) (a : ℕ) (f : ℚ)
    (key : String) (mask : List Bool) (qs : List ℕ)
    (ha : lookupH s a = some f) (hmem : a ∈ qs) (hnd : qs.Nodup)
    (hothers : ∀ q ∈ qs, q ≠ a → lookupH s q = none) :
    (stepOp s ⟨.Measurement key mask, qs⟩).1 =
      [⟨.Measurement key (dischargeMask s qs mask), qs⟩]
    ∧ (∀ j, j ≠ idxOf a qs →
        maskVal (dischargeMask s qs mask) j = maskVal mask j)
    ∧ maskVal (dischargeMask s qs mask) (idxOf a qs) =
      !(maskVal mask (idxOf a qs)) := by
  refine ⟨rfl, ?_, ?_⟩
  · intro j hj
    rw [dischargeMask_eq_flip s qs mask a f ha hnd hmem hothers]
    exact flipMask_maskVal_ne _ mask j hj
  · rw [dischargeMask_eq_flip s qs mask a f ha hnd hmem hothers]
    exact flipMask_maskVal_eq _ mask

theorem discharge_measurement_frame_witness :
    (stepOp [(1, 1/4)] ⟨.Measurement "" [], [0, 1]⟩).1 =
      [⟨.Measurement "" (dischargeMask [(1, 1/4)] [0, 1] []), [0, 1]⟩]
    ∧ maskVal (dischargeMask [(1, 1/4)] [0, 1] []) 0 = maskVal [] 0 := by
  have h := discharge_measurement_frame [(1, 1/4)] 1 (1/4) "" [] [0, 1] rfl
    (by decide) (by decide) (by decide)
  exact ⟨h.1, h.2.1 0 (by decide)⟩

/-- Operations whose gate is a blocker are treated as barriers by the scan
regardless of the current state. -/
theorem stepOp_blocker (op : Operation) (hb : blockerGate op.gate = true) :
    ∀ s' : HState, stepOp s' op = stepBarrier s' op := by
  obtain ⟨g, qs⟩ := op
  cases g with
  | PhasedRotation p t =>
    cases p with
    | sym k => exact fun s' => rfl
    | num pv =>
      cases t with
      | sym k => exact fun s' => rfl
      | num tv => simp [blockerGate, symbolicGate] at hb
  | ZRotation t =>
    cases t with
    | sym k => exact fun s' => rfl
    | num tv => simp [blockerGate, symbolicGate] at hb
  | ControlledPhase t =>
    cases t with
    | sym k => exact fun s' => rfl
    | num tv => simp [blockerGate, symbolicGate] at hb
  | Measurement key mask => simp [blockerGate, symbolicGate] at hb
  | Unknown i => exact fun s' => rfl

/-- C9: a circuit of the shape full rotation on `a`, blocking operation
touching `a` (unsupported gate or any gate with a symbolic parameter),
full rotation on `a`, is returned unchanged by the optimizer: the first
held rotation is re-emitted unchanged immediately before the unmodified
blocking operation, `a` is Clean across it, and the trailing rotation is
flushed at the end. -/
theorem blocked_unchanged (f1 f2 : ℚ) (a : ℕ) (blk : Operation)
    (h1 : canon f1 = f1) (h2 : canon f2 = f2)
    (hb : blockerGate blk.gate = true) (hmem : a ∈ blk.qubits) :
    ejectFullW [⟨.PhasedRotation (.num f1) (.num 1), [a]⟩, blk,
                ⟨.PhasedRotation (.num f2) (.num 1), [a]⟩] =
      [⟨.PhasedRotation (.num f1) (.num 1), [a]⟩, blk,
       ⟨.PhasedRotation (.num f2) (.num 1), [a]⟩] := by
  have hstep := stepOp_blocker blk hb
  have e1 : stepOp [] ⟨.PhasedRotation (.num f1) (.num 1), [a]⟩ =
      ([], [(a, f1)]) := by
    simp [stepOp, stepW, lookupH, setH, canon_one, h1]
  have e2 : stepOp [(a, f1)] blk = ([toW (a, f1), blk], []) := by
    rw [hstep, stepBarrier]
    have hl : [(a, f1)].filter (fun e => decide (e.1 ∈ blk.qubits)) =
        [(a, f1)] := by simp [hmem]
    have hr : [(a, f1)].filter (fun e => decide (e.1 ∉ blk.qubits)) =
        [] := by simp [hmem]
    rw [hl, hr]
    simp
  have e3 : stepOp [] ⟨.PhasedRotation (.num f2) (.num 1), [a]⟩ =
      ([], [(a, f2)]) := by
    simp [stepOp, stepW, lookupH, setH, canon_one, h2]
  show processOps [] _ = _
  simp [processOps, e1, e2, e3, toW]

theorem blocked_unchanged_witness :
    ejectFullW [⟨.PhasedRotation (.num 0) (.num 1), [0]⟩,
                ⟨.Unknown 0, [0, 1]⟩,
                ⟨.PhasedRotation (.num 0) (.num 1), [0]⟩] =
      [⟨.PhasedRotation (.num 0) (.num 1), [0]⟩, ⟨.Unknown 0, [0, 1]⟩,
       ⟨.PhasedRotation (.num 0) (.num 1), [0]⟩] :=
  blocked_unchanged 0 0 0 ⟨.Unknown 0, [0, 1]⟩ canon_zero canon_zero rfl
    (List.mem_cons_self 0 [1])

theorem decomposeFuel_zero (env : XmonEnv) (ig : Bool) (op : Operation) :
    decomposeFuel env ig 0 op = .error .DecompositionNonTermination := rfl

theorem decomposeFuel_succ (env : XmonEnv) (ig : Bool) (n : ℕ)
    (op : Operation) :
    decomposeFuel env ig (n + 1) op =
      (if env.keep op then .ok [op]
       else
        match convertOne env op with
        | some subs => decomposeMany (decomposeFuel env ig n) subs
        | none =>
          match env.decomp op with
          | some subs => decomposeMany (decomposeFuel env ig n) subs
          | none =>
            if ig then .ok [op]
            else .error (.UnconvertibleOperation op.gate
              op.qubits.length)) := rfl

/-- An `UnconvertibleOperation` failure always originates at an operation
on which all three lowering strategies failed in non-permissive mode, and
it carries that operation's gate and qubit count. -/
theorem unconv_source (fuel : ℕ) :
    (∀ (env : XmonEnv) (ig : Bool) (op : Operation) (g : Gate) (n : ℕ),
      decomposeFuel env ig fuel op = .error (.UnconvertibleOperation g n) →
      ig = false ∧ ∃ op' : Operation, env.keep op' = false ∧
        convertOne env op' = none ∧ env.decomp op' = none ∧
        op'.gate = g ∧ op'.qubits.length = n)
    ∧ (∀ (env : XmonEnv) (ig : Bool) (ops : List Operation) (g : Gate)
        (n : ℕ),
      decomposeMany (decomposeFuel env ig fuel) ops =
        .error (.UnconvertibleOperation g n) →
      ig = false ∧ ∃ op' : Operation, env.keep op' = false ∧
        convertOne env op' = none ∧ env.decomp op' = none ∧
        op'.gate = g ∧ op'.qubits.length = n) := by
  induction fuel with
  | zero =>
    constructor
    · intro env ig op g n h
      rw [decomposeFuel_zero] at h
      simp at h
    · intro env ig ops g n h
      induction ops with
      | nil => simp [decomposeMany] at h
      | cons op rest ihl =>
        simp only [decomposeMany, decomposeFuel_zero] at h
        simp at h
  | succ m ihn =>
    have hP : ∀ (env : XmonEnv) (ig : Bool) (op : Operation) (g : Gate)
        (n : ℕ),
        decomposeFuel env ig (m + 1) op =
          .error (.UnconvertibleOperation g n) →
        ig = false ∧ ∃ op' : Operation, env.keep op' = false ∧
          convertOne env op' = none ∧ env.decomp op' = none ∧
          op'.gate = g ∧ op'.qubits.length = n := by
      intro env ig op g n h
      rw [decomposeFuel_succ] at h
      by_cases hk : env.keep op = true
      · simp [hk] at h
      · simp only [hk, if_false, Bool.false_eq_true] at h
        cases hco : convertOne env op with
        | some subs =>
          rw [hco] at h
          exact ihn.2 env ig subs g n h
        | none =>
          rw [hco] at h
          cases hdc : env.decomp op with
          | some subs =>
            rw [hdc] at h
            exact ihn.2 env ig subs g n h
          | none =>
            rw [hdc] at h
            cases hig : ig with
            | true => rw [hig] at h; simp at h
            | false =>
              rw [hig] at h
              simp only [if_false, Bool.false_eq_true] at h
              have hgn := h
              rw [Except.error.injEq] at hgn
              obtain ⟨hg, hn⟩ := ConvertError.UnconvertibleOperation.inj hgn
              exact ⟨rfl, op, Bool.not_eq_true _ ▸ hk, hco, hdc, hg, hn⟩
    refine ⟨hP, fun env ig ops => ?_⟩
    induction ops with
    | nil => intro g n h; simp [decomposeMany] at h
    | cons op rest ihl =>
      intro g n h
      simp only [decomposeMany] at h
      cases hf : decomposeFuel env ig (m + 1) op with
      | error e =>
        rw [hf] at h
        rw [Except.error.injEq] at h
        exact hP env ig op g n (by rw [hf, h])
      | ok l1 =>
        rw [hf] at h
        cases hrest : decomposeMany (decomposeFuel env ig (m + 1)) rest with
        | ok l2 => rw [hrest] at h; simp at h
        | error e =>
          rw [hrest] at h
          simp at h
          exact ihl g n (by rw [hrest, h])

/-- C4: the recursive structural decomposition always terminates: the
recursion carries an explicit budget, an exhausted budget is reported as
`DecompositionNonTermination`, and even against a decomposition
collaborator that forever returns non-native sub-operations (`envCyclic`)
`convert` returns that error for every budget instead of looping. -/
theorem convert_terminates :
    (∀ (env : XmonEnv) (ig : Bool) (op : Operation),
      convert env ig 0 op = .error .DecompositionNonTermination)
    ∧ (∀ (ig : Bool) (fuel : ℕ) (op : Operation),
      convert envCyclic ig fuel op =
        .error .DecompositionNonTermination) := by
  refine ⟨fun env ig op => rfl, fun ig fuel => ?_⟩
  induction fuel with
  | zero => exact fun op => rfl
  | succ n ih =>
    intro op
    have hconv : convertOne envCyclic op = none := by
      simp [convertOne, envCyclic]
    have hk : envCyclic.keep op = false := rfl
    have hd : envCyclic.decomp op = some [op] := rfl
    have ih' : decomposeFuel envCyclic ig n op =
        .error .DecompositionNonTermination := ih op
    show decomposeFuel envCyclic ig (n + 1) op = _
    rw [decomposeFuel_succ, hconv, hk, hd]
    simp [decomposeMany, ih']

/-- C3: when all three lowering strategies fail on an operation (not
native, `convertOne` — cast and synthesis — yields nothing, and the
decomposition capability yields nothing), `convert` raises
`UnconvertibleOperation` carrying the operation's gate and qubit count in
non-permissive mode and returns the operation unchanged in permissive
mode; and `UnconvertibleOperation` is raised in no other case: any such
error implies non-permissive mode and an operation on which all three
strategies failed, whose gate and qubit count the error carries. -/
theorem convert_failure_cases :
    (∀ (env : XmonEnv) (op : Operation) (fuel : ℕ),
      env.keep op = false → convertOne env op = none →
      env.decomp op = none →
      convert env false (fuel + 1) op =
        .error (.UnconvertibleOperation op.gate op.qubits.length)
      ∧ convert env true (fuel + 1) op = .ok [op])
    ∧ (∀ (env : XmonEnv) (ig : Bool) (fuel : ℕ) (op : Operation)
        (g : Gate) (n : ℕ),
      convert env ig fuel op = .error (.UnconvertibleOperation g n) →
      ig = false ∧ ∃ op' : Operation, env.keep op' = false ∧
        convertOne env op' = none ∧ env.decomp op' = none ∧
        op'.gate = g ∧ op'.qubits.length = n) := by
  constructor
  · intro env op fuel hk hc hd
    constructor <;>
      (show decomposeFuel env _ (fuel + 1) op = _
       rw [decomposeFuel_succ, hk, hc, hd]
       simp)
  · intro env ig fuel op g n h
    exact (unconv_source fuel).1 env ig op g n h

theorem convert_failure_cases_witness :
    convert envNone false 1 ⟨.Unknown 3, [0, 1, 2]⟩ =
      .error (.UnconvertibleOperation (.Unknown 3) 3)
    ∧ convert envNone true 1 ⟨.Unknown 3, [0, 1, 2]⟩ =
      .ok [⟨.Unknown 3, [0, 1, 2]⟩] := by
  have h := convert_failure_cases.1 envNone ⟨.Unknown 3, [0, 1, 2]⟩ 0
    rfl rfl rfl
  exact ⟨h.1, h.2⟩

/-- C5: the lowering strategies are tried in a fixed order with the first
success winning: a successful capability cast preempts everything and
yields the native gate on the same qubits; unitary synthesis runs exactly
when the cast failed, the operation has a known unitary and acts on one
qubit (single-qubit oracle) or two qubits (two-qubit oracle, partial
controlled-phase gates allowed); with more than two qubits the unitary is
not even consulted; and only when `convertOne` yields nothing is the
structural decomposition capability consulted. -/
theorem convert_strategy_order :
    (∀ (env : XmonEnv) (op : Operation) (g : Gate),
      env.tryCast op.gate = some g →
      convertOne env op = some [⟨g, op.qubits⟩])
    ∧ (∀ (env : XmonEnv) (op : Operation) (m : ℕ) (q : ℕ),
      env.tryCast op.gate = none → op.qubits = [q] →
      env.unitaryOf op = some m →
      convertOne env op = some (env.synth1 m q))
    ∧ (∀ (env : XmonEnv) (op : Operation) (m : ℕ) (q1 q2 : ℕ),
      env.tryCast op.gate = none → op.qubits = [q1, q2] →
      env.unitaryOf op = some m →
      convertOne env op = some (env.synth2 m q1 q2 true))
    ∧ (∀ (env : XmonEnv) (op : Operation),
      env.tryCast op.gate = none → op.qubits.length ≤ 2 →
      env.unitaryOf op = none → convertOne env op = none)
    ∧ (∀ (env : XmonEnv) (op : Operation),
      env.tryCast op.gate = none → 2 < op.qubits.length →
      convertOne env op = none)
    ∧ (∀ (env : XmonEnv) (ig : Bool) (n : ℕ) (op : Operation)
        (subs : List Operation),
      env.keep op = false → convertOne env op = none →
      env.decomp op = some subs →
      convert env ig (n + 1) op =
        decomposeMany (decomposeFuel env ig n) subs) := by
  refine ⟨?_, ?_, ?_, ?_, ?_, ?_⟩
  · intro env op g h
    simp [convertOne, h]
  · intro env op m q hcast hq hu
    simp [convertOne, hcast, hq, hu]
  · intro env op m q1 q2 hcast hq hu
    simp [convertOne, hcast, hq, hu]
  · intro env op hcast hlen hu
    simp [convertOne, hcast, hlen, hu]
  · intro env op hcast hlen
    have h2 : ¬op.qubits.length ≤ 2 := by omega
    simp [convertOne, hcast, h2]
  · intro env ig n op subs hk hc hd
    show decomposeFuel env ig (n + 1) op = _
    rw [decomposeFuel_succ, hk, hc, hd]
    simp

theorem convert_strategy_order_witness :
    convertOne envCast ⟨.Unknown 0, [3, 4]⟩ =
      some [⟨.ZRotation (.num 1), [3, 4]⟩]
    ∧ convertOne envSynth ⟨.Unknown 0, [5]⟩ = some (envSynth.synth1 7 5)
    ∧ convertOne envSynth ⟨.Unknown 0, [5, 6]⟩ =
      some (envSynth.synth2 7 5 6 true)
    ∧ convertOne envNone ⟨.Unknown 0, [5]⟩ = none
    ∧ convertOne envSynth ⟨.Unknown 0, [5, 6, 7]⟩ = none
    ∧ convert envCyclic false 1 ⟨.Unknown 0, [5]⟩ =
      decomposeMany (decomposeFuel envCyclic false 0) [⟨.Unknown 0, [5]⟩] :=
  ⟨convert_strategy_order.1 envCast ⟨.Unknown 0, [3, 4]⟩ _ rfl,
   convert_strategy_order.2.1 envSynth ⟨.Unknown 0, [5]⟩ 7 5 rfl rfl rfl,
   convert_strategy_order.2.2.1 envSynth ⟨.Unknown 0, [5, 6]⟩ 7 5 6
     rfl rfl rfl,
   convert_strategy_order.2.2.2.1 envNone ⟨.Unknown 0, [5]⟩ rfl
     (by norm_num) rfl,
   convert_strategy_order.2.2.2.2.1 envSynth ⟨.Unknown 0, [5, 6, 7]⟩ rfl
     (by norm_num),
   convert_strategy_order.2.2.2.2.2 envCyclic false 0 ⟨.Unknown 0, [5]⟩
     [⟨.Unknown 0, [5]⟩] rfl rfl rfl⟩
